import Mathlib

/-!
Shallow embedding of the concurrent annotation pipeline in `src/main.rs`
(crate `skyforcedataset`).

The Rust program spawns `num_workers` tokio tasks, each holding a clone of an
`ImageSource` (a glob-collected path list plus an integer cursor) and a clone
of an `ObjectDetectionTask`.  Each worker repeatedly calls `get_data`, runs the
task on loaded images, and sends `SystemMessage::ProcessingResult` values over
a bounded mpsc channel; on source exhaustion it sends `SystemMessage::Completed`
once and stops.  A single aggregator loop receives messages, persists
successful results via `save_labels`, prints failures, and breaks once it has
counted `num_workers` completion signals.

Modelling choices:
* `f32` scalars are modelled as rationals; `u32` class ids as naturals.
* External effects are parameters: `image::open` becomes a `load` function,
  the opencv call chain inside `detect_objects` becomes a `cvPipeline`
  function, and the aggregator's filesystem interaction becomes a `save`
  function returning `Except`.
* The mutation of `self` in `get_data` is explicit state passing; the worker
  `while let` loop is given fuel (always sufficient for `ImageSource`, whose
  remaining-item count strictly decreases).
* Interleaving of the per-worker message streams on the mpsc channel is an
  inductive merge relation; per-producer FIFO order is exactly what it keeps.
-/

/-- Tuple type `(u32, f32, f32, f32, f32)` used by the Rust code for one
detection record: class id, center-x, center-y, width, height. -/
abbrev Lbl : Type := ℕ × ℚ × ℚ × ℚ × ℚ

/-- The payload of `ProcessingError(String)`. -/
abbrev PErr : Type := String

/-- The Rust enum `SystemMessage`: a tagged processing result
`Result<(String, Vec<(u32,f32,f32,f32,f32)>), ProcessingError>` or the
per-worker completion marker `Completed`. -/
inductive SystemMessage : Type
  | processingResult : Except PErr (String × List Lbl) → SystemMessage
  | completed : SystemMessage

/-- The struct `ImageSource`: the glob-collected path list and the cursor
`index`.  `#[derive(Clone)]` copies both fields. -/
structure ImageSource : Type where
  paths : List String
  index : ℕ
  deriving DecidableEq

/-- Method `ImageSource::get_data`.  `image::open` is abstracted as the `load`
parameter.  The Rust method mutates `self`; here the successor state is
returned alongside the yielded value.  Faithful to the source: if
`index >= paths.len()` return `None` (state unchanged); otherwise read
`paths[index]`, increment `index`, and wrap the load result. -/
def get_data {Img : Type} (load : String → Except PErr Img) (s : ImageSource) :
    Option (Except PErr (String × Img)) × ImageSource :=
  if s.paths.length ≤ s.index then (none, s)
  else
    match load (s.paths.getD s.index "") with
    | Except.ok img => (some (Except.ok (s.paths.getD s.index "", img)), ⟨s.paths, s.index + 1⟩)
    | Except.error e => (some (Except.error e), ⟨s.paths, s.index + 1⟩)

/-- State of an `ImageSource` after `k` successive `get_data` calls. -/
def stepN {Img : Type} (load : String → Except PErr Img) : ℕ → ImageSource → ImageSource
  | 0, s => s
  | k + 1, s => stepN load k (get_data load s).2

/-- The worker `while let Some(data) = data_source.get_data()` loop from
`ProcessingSystem::run`, producing the stream of messages this worker sends:
on `Ok((path, img))` it sends the task result mapped to carry the path, on
`Err(e)` it sends the failure, and on `None` it sends one `Completed` and
stops.  Recursion is on fuel; `workerTrace` below supplies enough. -/
def workerLoop {Img : Type} (task : Img → Except PErr (List Lbl))
    (load : String → Except PErr Img) : ℕ → ImageSource → List SystemMessage
  | 0, _ => []
  | fuel + 1, s =>
    match get_data load s with
    | (some (Except.ok (path, img)), s') =>
        SystemMessage.processingResult ((task img).map (fun ls => (path, ls))) ::
          workerLoop task load fuel s'
    | (some (Except.error e), s') =>
        SystemMessage.processingResult (Except.error e) :: workerLoop task load fuel s'
    | (none, _) => [SystemMessage.completed]

/-- The message a worker sends for the path `p`: load, then run the task,
mirroring the two send sites inside the worker loop. -/
def itemMsg {Img : Type} (task : Img → Except PErr (List Lbl))
    (load : String → Except PErr Img) (p : String) : SystemMessage :=
  match load p with
  | Except.ok img => SystemMessage.processingResult ((task img).map (fun ls => (p, ls)))
  | Except.error e => SystemMessage.processingResult (Except.error e)

/-- The complete message stream of one worker started on source state `s`:
the loop with sufficient fuel (one step per remaining item plus the final
`None` step). -/
def workerTrace {Img : Type} (task : Img → Except PErr (List Lbl))
    (load : String → Except PErr Img) (s : ImageSource) : List SystemMessage :=
  workerLoop task load (s.paths.length - s.index + 1) s

/-- In `ProcessingSystem::run` every worker receives `self.data_source.clone()`:
all `n` workers start from the same copied cursor state. -/
def spawnTraces {Img : Type} (task : Img → Except PErr (List Lbl))
    (load : String → Except PErr Img) (s : ImageSource) (n : ℕ) :
    List (List SystemMessage) :=
  List.replicate n (workerTrace task load s)

/-- Outcome of the aggregator loop: normal return (persisted results, reported
errors, messages left unconsumed in the channel), a panic (the Rust `expect`
on `save_labels`), or indefinite blocking on `recv` (the message list ran out
before `num_workers` completions). -/
inductive AggOut : Type
  | done : List (String × List Lbl) → List PErr → List SystemMessage → AggOut
  | panicked : String → AggOut
  | blocked : AggOut

/-- The aggregator `while let Some(msg) = rx.recv()` loop of
`ProcessingSystem::run`.  `save` models the fallible filesystem side of
`save_labels`; on a successful result the Rust code calls
`save_labels(&path, annotations).expect("Failed to save labels")`, so a save
failure panics.  On a failure result it prints and continues.  On `Completed`
it increments the counter and breaks when the counter reaches `n`. -/
def aggLoop (save : String → List Lbl → Except String Unit) (n : ℕ) :
    ℕ → List (String × List Lbl) → List PErr → List SystemMessage → AggOut
  | _, _, _, [] => AggOut.blocked
  | c, sv, er, SystemMessage.processingResult (Except.ok (path, ls)) :: rest =>
    (match save path ls with
     | Except.ok _ => aggLoop save n c (sv ++ [(path, ls)]) er rest
     | Except.error _ => AggOut.panicked "Failed to save labels")
  | c, sv, er, SystemMessage.processingResult (Except.error e) :: rest =>
      aggLoop save n c sv (er ++ [e]) rest
  | c, sv, er, SystemMessage.completed :: rest =>
      if c + 1 = n then AggOut.done sv er rest else aggLoop save n (c + 1) sv er rest

/-- Merge of two message streams preserving the order of each: the possible
receive orders at a two-producer channel. -/
inductive Merge : List SystemMessage → List SystemMessage → List SystemMessage → Prop
  | nil : Merge [] [] []
  | left {x : SystemMessage} {l r m : List SystemMessage} :
      Merge l r m → Merge (x :: l) r (x :: m)
  | right {x : SystemMessage} {l r m : List SystemMessage} :
      Merge l r m → Merge l (x :: r) (x :: m)

/-- A list is an interleaving of the given per-producer streams: the order
seen by the single consumer of the mpsc channel, which preserves each
producer's FIFO order but fixes nothing across producers. -/
def Interleaving : List (List SystemMessage) → List SystemMessage → Prop
  | [], m => m = []
  | t :: ts, m => ∃ m', Merge t m' m ∧ Interleaving ts m'

/-- Test for the completion marker. -/
def isCompleted : SystemMessage → Bool
  | SystemMessage.completed => true
  | SystemMessage.processingResult _ => false

/-- Number of completion signals in a message stream. -/
def countCompleted (t : List SystemMessage) : ℕ := t.countP isCompleted

/-- Test for a processing-result message (an Outcome). -/
def isOutcome : SystemMessage → Bool
  | SystemMessage.processingResult _ => true
  | SystemMessage.completed => false

/-- Number of Outcomes in a message stream. -/
def outcomeCount (t : List SystemMessage) : ℕ := t.countP isOutcome

/-- Round the fraction `(num * 10^6) / den` to the nearest integer, ties to
even: the rounding Rust's fixed-precision float formatting applies to the
scaled value.  Stated on numerator and denominator so that it evaluates by
integer arithmetic. -/
def rhe6 (num : ℤ) (den : ℕ) : ℤ :=
  let a := num * 1000000
  let b : ℤ := den
  let fl := Int.fdiv a b
  let r := a - fl * b
  if 2 * r < b then fl
  else if b < 2 * r then fl + 1
  else if fl % 2 = 0 then fl else fl + 1

/-- Left-pad a digit string with zeros to width 6. -/
def pad6 (s : String) : String :=
  String.mk (List.replicate (6 - s.length) '0') ++ s

/-- Fixed-point rendering with six decimal places of a nonnegative scaled
integer (the value times 10^6). -/
def fmt6Scaled (n : ℕ) : String :=
  Nat.repr (n / 1000000) ++ "." ++ pad6 (Nat.repr (n % 1000000))

/-- The `{:.6}` format specifier applied to one scalar, on the rational model
of `f32`: sign, then the rounded scaled magnitude rendered with six decimal
places. -/
def fmt6 (q : ℚ) : String :=
  if q.num < 0 then "-" ++ fmt6Scaled (rhe6 (-q.num) q.den).toNat
  else fmt6Scaled (rhe6 q.num q.den).toNat

/-- One line written by `save_labels`:
`writeln!(file, "{} {:.6} {:.6} {:.6} {:.6}", class_id, x_center, y_center, width, height)`. -/
def formatLine (l : Lbl) : String :=
  Nat.repr l.1 ++ " " ++ fmt6 l.2.1 ++ " " ++ fmt6 l.2.2.1 ++ " " ++
    fmt6 l.2.2.2.1 ++ " " ++ fmt6 l.2.2.2.2

/-- All lines written for a label list, in order. -/
def labelLines (labels : List Lbl) : List String := labels.map formatLine

/-- Split a character list at every occurrence of the separator; always
returns at least one (possibly empty) chunk, like `str::split`. -/
def splitOnChar (c : Char) : List Char → List (List Char)
  | [] => [[]]
  | x :: xs =>
    match splitOnChar c xs with
    | [] => if x = c then [[], []] else [[x]]
    | h :: t => if x = c then [] :: h :: t else (x :: h) :: t

/-- Join chunks with the separator: inverse of `splitOnChar`. -/
def joinWith (c : Char) : List (List Char) → List Char
  | [] => []
  | [x] => x
  | x :: xs => x ++ c :: joinWith c xs

/-- Rust `Path::file_name` on a POSIX-style path string: the last path
component after dropping empty and `.` components (path normalization);
`None` when no component remains or the last one is `..`. -/
def fileName (p : String) : Option (List Char) :=
  let comps := (splitOnChar '/' p.data).filter (fun c => (c != []) && (c != ['.']))
  match comps.getLast? with
  | none => none
  | some c => if c = ['.', '.'] then none else some c

/-- Rust stem extraction from a file name: the portion before the last `.`,
except that a name with no dot, or whose only dot is leading, is its own
stem. -/
def stemOfName (name : List Char) : List Char :=
  let parts := splitOnChar '.' name
  if parts.length ≤ 1 then name
  else
    let before := joinWith '.' parts.dropLast
    if before = [] then name else before

/-- Rust `Path::file_stem` as used by `save_labels` (`file_stem().unwrap()`
followed by `to_str().unwrap()`, which cannot fail on the unicode strings of
the model). -/
def fileStem (p : String) : Option String :=
  (fileName p).map (fun n => String.mk (stemOfName n))

/-- Filesystem effects issued by `save_labels`, in program order. -/
inductive FsOp : Type
  | createDirAll : String → FsOp
  | createFile : String → FsOp
  | writeLine : String → String → FsOp
  deriving DecidableEq

/-- Function `save_labels` as the ordered effect trace it issues: derive the
stem of `image_path` (`none` models the `unwrap` panic when `file_stem`
returns `None`), then `fs::create_dir_all("./output/labels")`, then create
`<stem>.txt` in that directory, then write one formatted line per label. -/
def save_labels (image_path : String) (labels : List Lbl) : Option (List FsOp) :=
  match fileStem image_path with
  | none => none
  | some stem =>
    some (FsOp.createDirAll "./output/labels" ::
      FsOp.createFile ("./output/labels/" ++ stem ++ ".txt") ::
        labels.map (fun l => FsOp.writeLine ("./output/labels/" ++ stem ++ ".txt") (formatLine l)))

/-- Line content of a write effect to the given file, if any. -/
def lineOf (outPath : String) : FsOp → Option String
  | FsOp.writeLine p line => if p = outPath then some line else none
  | FsOp.createDirAll _ => none
  | FsOp.createFile _ => none

/-- Method `ObjectDetectionTask::detect_objects`.  The opencv call chain
(`Mat::from_slice`, `imdecode`, `blob_from_image`, the mutex lock,
`set_input`, `forward`) is abstracted as `cvPipeline`; each `?` in the chain
short-circuits to an error.  After a successful chain the function builds
`let mut annotations = Vec::new();` — the extraction logic is a `TODO` — and
returns `Ok(annotations)`. -/
def detect_objects {Img : Type} (cvPipeline : Img → Except PErr Unit) (input : Img) :
    Except PErr (List Lbl) :=
  match cvPipeline input with
  | Except.error e => Except.error e
  | Except.ok _ => Except.ok []

/-- `Task::process` for `ObjectDetectionTask` just calls `detect_objects`. -/
def process {Img : Type} (cvPipeline : Img → Except PErr Unit) (input : Img) :
    Except PErr (List Lbl) :=
  detect_objects cvPipeline input

/-- Loader that always succeeds, for concrete runs. -/
def demoLoad : String → Except PErr Unit := fun _ => Except.ok ()

/-- Task that always succeeds with no labels, for concrete runs. -/
def demoTask : Unit → Except PErr (List Lbl) := fun _ => Except.ok []

/-- Persistence that always succeeds, for concrete runs. -/
def demoSave : String → List Lbl → Except String Unit := fun _ _ => Except.ok ()

/-- Persistence that always fails, for concrete runs. -/
def demoBadSave : String → List Lbl → Except String Unit := fun _ _ => Except.error "io"

theorem get_data_fst_none_iff {Img : Type} (load : String → Except PErr Img)
    (s : ImageSource) : (get_data load s).1 = none ↔ s.paths.length ≤ s.index := by
  by_cases h : s.paths.length ≤ s.index
  · simp [get_data, h]
  · simp only [get_data, if_neg h]
    cases hl : load (s.paths.getD s.index "") with
    | ok img => simp [h]
    | error e => simp [h]

theorem get_data_snd_of_none {Img : Type} (load : String → Except PErr Img)
    (s : ImageSource) (h : (get_data load s).1 = none) : (get_data load s).2 = s := by
  have hle : s.paths.length ≤ s.index := (get_data_fst_none_iff load s).mp h
  simp [get_data, hle]

theorem get_data_snd_of_lt {Img : Type} (load : String → Except PErr Img)
    (s : ImageSource) (h : s.index < s.paths.length) :
    (get_data load s).2 = ⟨s.paths, s.index + 1⟩ := by
  have hnot : ¬ s.paths.length ≤ s.index := Nat.not_le.mpr h
  simp only [get_data, if_neg hnot]
  cases hl : load (s.paths.getD s.index "") with
  | ok img => rfl
  | error e => rfl

theorem stepN_eq {Img : Type} (load : String → Except PErr Img) :
    ∀ (k : ℕ) (paths : List String) (index : ℕ), index ≤ paths.length →
      stepN load k ⟨paths, index⟩ = ⟨paths, min (index + k) paths.length⟩ := by
  intro k
  induction k with
  | zero =>
    intro paths index h
    simp only [stepN, ImageSource.mk.injEq]
    exact ⟨trivial, by omega⟩
  | succ k ih =>
    intro paths index h
    by_cases hlt : index < paths.length
    · have h2 : (get_data load ⟨paths, index⟩).2 = ⟨paths, index + 1⟩ :=
        get_data_snd_of_lt load ⟨paths, index⟩ hlt
      simp only [stepN, h2]
      rw [ih paths (index + 1) hlt]
      simp only [ImageSource.mk.injEq]
      exact ⟨trivial, by omega⟩
    · have hle : paths.length ≤ index := Nat.le_of_not_lt hlt
      have hidx : index = paths.length := Nat.le_antisymm h hle
      have h2 : (get_data load ⟨paths, index⟩).2 = ⟨paths, index⟩ :=
        get_data_snd_of_none load ⟨paths, index⟩
          ((get_data_fst_none_iff load ⟨paths, index⟩).mpr hle)
      simp only [stepN, h2]
      rw [ih paths index h]
      simp only [ImageSource.mk.injEq]
      exact ⟨trivial, by omega⟩

theorem workerLoop_eq {Img : Type} (task : Img → Except PErr (List Lbl))
    (load : String → Except PErr Img) :
    ∀ (fuel : ℕ) (s : ImageSource), s.paths.length - s.index < fuel →
      workerLoop task load fuel s =
        (s.paths.drop s.index).map (itemMsg task load) ++ [SystemMessage.completed] := by
  intro fuel
  induction fuel with
  | zero => intro s h; omega
  | succ fuel ih =>
    intro s h
    by_cases hle : s.paths.length ≤ s.index
    · have hdrop : s.paths.drop s.index = [] := List.drop_eq_nil_of_le hle
      have hgd : get_data load s = (none, s) := by simp [get_data, hle]
      simp only [workerLoop, hgd, hdrop, List.map_nil, List.nil_append]
    · push_neg at hle
      have hdrop : s.paths.drop s.index =
          s.paths.getD s.index "" :: s.paths.drop (s.index + 1) := by
        rw [List.drop_eq_getElem_cons hle, List.getD_eq_getElem s.paths "" hle]
      have hih : workerLoop task load fuel ⟨s.paths, s.index + 1⟩ =
          (s.paths.drop (s.index + 1)).map (itemMsg task load) ++
            [SystemMessage.completed] :=
        ih ⟨s.paths, s.index + 1⟩ (by show s.paths.length - (s.index + 1) < fuel; omega)
      have hnot : ¬ s.paths.length ≤ s.index := Nat.not_le.mpr hle
      cases hl : load (s.paths.getD s.index "") with
      | ok img =>
        have hgd : get_data load s =
            (some (Except.ok (s.paths.getD s.index "", img)), ⟨s.paths, s.index + 1⟩) := by
          simp only [get_data, if_neg hnot]
          rw [hl]
        have hmsg : itemMsg task load (s.paths.getD s.index "") =
            SystemMessage.processingResult
              ((task img).map (fun ls => (s.paths.getD s.index "", ls))) := by
          simp only [itemMsg]
          rw [hl]
        simp only [workerLoop, hgd, hdrop, List.map_cons, List.cons_append, hmsg, hih]
      | error e =>
        have hgd : get_data load s =
            (some (Except.error e), ⟨s.paths, s.index + 1⟩) := by
          simp only [get_data, if_neg hnot]
          rw [hl]
        have hmsg : itemMsg task load (s.paths.getD s.index "") =
            SystemMessage.processingResult (Except.error e) := by
          simp only [itemMsg]
          rw [hl]
        simp only [workerLoop, hgd, hdrop, List.map_cons, List.cons_append, hmsg, hih]

theorem workerTrace_eq {Img : Type} (task : Img → Except PErr (List Lbl))
    (load : String → Except PErr Img) (s : ImageSource) :
    workerTrace task load s =
      (s.paths.drop s.index).map (itemMsg task load) ++ [SystemMessage.completed] :=
  workerLoop_eq task load (s.paths.length - s.index + 1) s (by omega)

theorem isCompleted_itemMsg {Img : Type} (task : Img → Except PErr (List Lbl))
    (load : String → Except PErr Img) (p : String) :
    isCompleted (itemMsg task load p) = false := by
  cases hl : load p with
  | ok img => simp only [itemMsg]; rw [hl]; rfl
  | error e => simp only [itemMsg]; rw [hl]; rfl


theorem countCompleted_map_itemMsg {Img : Type} (task : Img → Except PErr (List Lbl))
    (load : String → Except PErr Img) (l : List String) :
    countCompleted (l.map (itemMsg task load)) = 0 := by
  rw [countCompleted, List.countP_eq_zero]
  intro a ha
  obtain ⟨p, _, rfl⟩ := List.mem_map.mp ha
  simp [isCompleted_itemMsg]

theorem countCompleted_workerTrace {Img : Type} (task : Img → Except PErr (List Lbl))
    (load : String → Except PErr Img) (s : ImageSource) :
    countCompleted (workerTrace task load s) = 1 := by
  rw [workerTrace_eq, countCompleted, List.countP_append]
  have h1 : List.countP isCompleted ((s.paths.drop s.index).map (itemMsg task load)) = 0 :=
    countCompleted_map_itemMsg task load _
  rw [h1]
  rfl

theorem Merge.countP_eq {p : SystemMessage → Bool} {l r m : List SystemMessage}
    (h : Merge l r m) : m.countP p = l.countP p + r.countP p := by
  induction h with
  | nil => simp
  | left h ih => simp only [List.countP_cons, ih]; ring
  | right h ih => simp only [List.countP_cons, ih]; ring

theorem Merge.length_eq {l r m : List SystemMessage} (h : Merge l r m) :
    m.length = l.length + r.length := by
  induction h with
  | nil => simp
  | left h ih => simp only [List.length_cons, ih]; ring
  | right h ih => simp only [List.length_cons, ih]; ring

theorem interleaving_countP (p : SystemMessage → Bool) :
    ∀ (ls : List (List SystemMessage)) (m : List SystemMessage), Interleaving ls m →
      m.countP p = (ls.map (List.countP p)).sum := by
  intro ls
  induction ls with
  | nil =>
    intro m h
    have hm : m = [] := h
    simp [hm]
  | cons t ts ih =>
    intro m h
    obtain ⟨m', hm, hts⟩ := h
    rw [hm.countP_eq, ih m' hts]
    simp

theorem interleaving_length :
    ∀ (ls : List (List SystemMessage)) (m : List SystemMessage), Interleaving ls m →
      m.length = (ls.map List.length).sum := by
  intro ls
  induction ls with
  | nil =>
    intro m h
    have hm : m = [] := h
    simp [hm]
  | cons t ts ih =>
    intro m h
    obtain ⟨m', hm, hts⟩ := h
    rw [hm.length_eq, ih m' hts]
    simp

theorem aggLoop_done (save : String → List Lbl → Except String Unit)
    (hsave : ∀ p ls, save p ls = Except.ok ()) :
    ∀ (m : List SystemMessage) (n c : ℕ) (sv : List (String × List Lbl)) (er : List PErr),
      c < n → n ≤ c + countCompleted m →
      ∃ sv' er' pre rest, m = pre ++ SystemMessage.completed :: rest ∧
        countCompleted pre = n - 1 - c ∧
        aggLoop save n c sv er m = AggOut.done sv' er' rest := by
  intro m
  induction m with
  | nil =>
    intro n c sv er hc hcount
    exfalso
    simp [countCompleted] at hcount
    omega
  | cons msg rest ih =>
    intro n c sv er hc hcount
    cases msg with
    | completed =>
      by_cases hbreak : c + 1 = n
      · refine ⟨sv, er, [], rest, by simp, ?_, ?_⟩
        · simp [countCompleted]
          omega
        · simp only [aggLoop, if_pos hbreak]
      · have hcc : countCompleted (SystemMessage.completed :: rest) =
            countCompleted rest + 1 := by
          simp [countCompleted, List.countP_cons, isCompleted]
        have hc' : c + 1 < n := by omega
        have hcount' : n ≤ (c + 1) + countCompleted rest := by omega
        obtain ⟨sv', er', pre, rst, hmeq, hpre, heq⟩ := ih n (c + 1) sv er hc' hcount'
        refine ⟨sv', er', SystemMessage.completed :: pre, rst, by simp [hmeq], ?_, ?_⟩
        · have : countCompleted (SystemMessage.completed :: pre) =
              countCompleted pre + 1 := by
            simp [countCompleted, List.countP_cons, isCompleted]
          omega
        · simp only [aggLoop, if_neg hbreak]
          exact heq
    | processingResult res =>
      cases res with
      | ok pl =>
        obtain ⟨path, ls⟩ := pl
        have hcc : countCompleted
            (SystemMessage.processingResult (Except.ok (path, ls)) :: rest) =
            countCompleted rest := by
          simp [countCompleted, List.countP_cons, isCompleted]
        have hcount' : n ≤ c + countCompleted rest := by omega
        obtain ⟨sv', er', pre, rst, hmeq, hpre, heq⟩ :=
          ih n c (sv ++ [(path, ls)]) er hc hcount'
        refine ⟨sv', er', SystemMessage.processingResult (Except.ok (path, ls)) :: pre,
          rst, by simp [hmeq], ?_, ?_⟩
        · have : countCompleted
              (SystemMessage.processingResult (Except.ok (path, ls)) :: pre) =
              countCompleted pre := by
            simp [countCompleted, List.countP_cons, isCompleted]
          omega
        · simp only [aggLoop]
          rw [hsave path ls]
          exact heq
      | error e =>
        have hcc : countCompleted
            (SystemMessage.processingResult (Except.error e) :: rest) =
            countCompleted rest := by
          simp [countCompleted, List.countP_cons, isCompleted]
        have hcount' : n ≤ c + countCompleted rest := by omega
        obtain ⟨sv', er', pre, rst, hmeq, hpre, heq⟩ :=
          ih n c sv (er ++ [e]) hc hcount'
        refine ⟨sv', er', SystemMessage.processingResult (Except.error e) :: pre,
          rst, by simp [hmeq], ?_, ?_⟩
        · have : countCompleted
              (SystemMessage.processingResult (Except.error e) :: pre) =
              countCompleted pre := by
            simp [countCompleted, List.countP_cons, isCompleted]
          omega
        · simp only [aggLoop]
          exact heq

theorem filterMap_lineOf_writeLines (path : String) (L : List Lbl) :
    (L.map (fun l => FsOp.writeLine path (formatLine l))).filterMap (lineOf path) =
      L.map formatLine := by
  induction L with
  | nil => rfl
  | cons a L ih => simp [lineOf, ih]

theorem interleaving_replicate_completed (n : ℕ) (m : List SystemMessage)
    (h : Interleaving (List.replicate n [SystemMessage.completed]) m) :
    m = List.replicate n SystemMessage.completed := by
  have hc := interleaving_countP isCompleted _ m h
  have hl := interleaving_length _ m h
  simp [List.map_replicate, List.sum_replicate, List.countP_cons, isCompleted] at hc hl
  have hall : ∀ x ∈ m, isCompleted x = true := by
    refine List.countP_eq_length.mp ?_
    rw [hc, hl]
  rw [List.eq_replicate_iff]
  refine ⟨hl, fun b hb => ?_⟩
  have := hall b hb
  cases b with
  | completed => rfl
  | processingResult r => simp [isCompleted] at this

theorem aggLoop_replicate_completed (save : String → List Lbl → Except String Unit)
    (n : ℕ) : ∀ (k c : ℕ), c + k = n → 0 < k →
      aggLoop save n c [] [] (List.replicate k SystemMessage.completed) =
        AggOut.done [] [] [] := by
  intro k
  induction k with
  | zero => intro c h h0; omega
  | succ k ih =>
    intro c h h0
    rw [List.replicate_succ]
    by_cases hbreak : c + 1 = n
    · have hk : k = 0 := by omega
      subst hk
      simp only [aggLoop, if_pos hbreak, List.replicate]
    · simp only [aggLoop, if_neg hbreak]
      exact ih (c + 1) (by omega) (by omega)

/-- C2 (failing input): in `ProcessingSystem::run` every worker receives
`self.data_source.clone()`, which copies the cursor, so with 2 workers and a
single-item source the run produces 2 Outcomes for the 1 WorkItem — the claim
that each item is claimed by exactly one worker (one Outcome per WorkItem)
fails on the code. -/
theorem cloned_cursor_duplicates_items :
    (spawnTraces demoTask demoLoad ⟨["a"], 0⟩ 2).length = 2 ∧
    ((spawnTraces demoTask demoLoad ⟨["a"], 0⟩ 2).map outcomeCount).sum = 2 ∧
    ¬ ((spawnTraces demoTask demoLoad ⟨["a"], 0⟩ 2).map outcomeCount).sum = 1 := by
  refine ⟨rfl, by decide, by decide⟩

/-- C4: `ImageSource::get_data` returning `None` leaves the state unchanged,
so exhaustion is permanent, and starting from a fresh source the `k`-th call
(`k` counted from 0) returns `None` exactly when `k ≥ paths.len()` — i.e.
`Some` for exactly the first `paths.len()` calls. -/
theorem get_data_exhaustion_permanent {Img : Type} (load : String → Except PErr Img)
    (paths : List String) (k : ℕ) :
    (∀ s : ImageSource, (get_data load s).1 = none →
      (get_data load s).2 = s ∧ (get_data load ((get_data load s).2)).1 = none) ∧
    ((get_data load (stepN load k ⟨paths, 0⟩)).1 = none ↔ paths.length ≤ k) := by
  refine ⟨fun s h => ?_, ?_⟩
  · have h2 := get_data_snd_of_none load s h
    exact ⟨h2, by rw [h2]; exact h⟩
  · rw [stepN_eq load k paths 0 (Nat.zero_le _), get_data_fst_none_iff]
    show paths.length ≤ min (0 + k) paths.length ↔ paths.length ≤ k
    omega

/-- Witness for C4 at a concrete source: one path, one consuming call. -/
theorem get_data_exhaustion_permanent_w :
    (∀ s : ImageSource, (get_data demoLoad s).1 = none →
      (get_data demoLoad s).2 = s ∧ (get_data demoLoad ((get_data demoLoad s).2)).1 = none) ∧
    ((get_data demoLoad (stepN demoLoad 1 ⟨["a"], 0⟩)).1 = none ↔
      (["a"] : List String).length ≤ 1) :=
  get_data_exhaustion_permanent demoLoad ["a"] 1

/-- C6: for every input path with a file stem, `save_labels` first creates the
fixed output directory `./output/labels`, then creates the file named
`<stem>.txt` inside it, then writes the label lines; shown on the general
effect trace and on the concrete stem computation for a screenshot path. -/
theorem save_labels_output_target (P stem : String) (L : List Lbl)
    (hstem : fileStem P = some stem) :
    save_labels P L = some (FsOp.createDirAll "./output/labels" ::
      FsOp.createFile ("./output/labels/" ++ stem ++ ".txt") ::
      L.map (fun l => FsOp.writeLine ("./output/labels/" ++ stem ++ ".txt") (formatLine l))) ∧
    fileStem "./screenshots/shot_001.png" = some "shot_001" := by
  constructor
  · simp only [save_labels, hstem]
  · decide

/-- Witness for C6 at a concrete path and label list. -/
theorem save_labels_output_target_w :
    fileStem "./screenshots/shot_001.png" = some "shot_001" ∧
    (save_labels "./screenshots/shot_001.png" [] =
      some [FsOp.createDirAll "./output/labels",
        FsOp.createFile "./output/labels/shot_001.txt"] ∧
      fileStem "./screenshots/shot_001.png" = some "shot_001") :=
  ⟨by decide, save_labels_output_target "./screenshots/shot_001.png" "shot_001" [] (by decide)⟩

/-- C8: when persisting a successful Outcome fails, the aggregator's handling
of that message is the panic `"Failed to save labels"` (the `expect` call) —
a hard error, not a log line; whereas a failure Outcome is only recorded and
the consumer loop continues with the remaining messages. -/
theorem persistence_error_vs_item_error :
    (∀ (save : String → List Lbl → Except String Unit) (n c : ℕ)
      (sv : List (String × List Lbl)) (er : List PErr) (path : String)
      (ls : List Lbl) (rest : List SystemMessage) (msg : String),
      save path ls = Except.error msg →
      aggLoop save n c sv er
        (SystemMessage.processingResult (Except.ok (path, ls)) :: rest) =
        AggOut.panicked "Failed to save labels") ∧
    (∀ (save : String → List Lbl → Except String Unit) (n c : ℕ)
      (sv : List (String × List Lbl)) (er : List PErr) (e : PErr)
      (rest : List SystemMessage),
      aggLoop save n c sv er
        (SystemMessage.processingResult (Except.error e) :: rest) =
        aggLoop save n c sv (er ++ [e]) rest) := by
  constructor
  · intro save n c sv er path ls rest msg h
    simp only [aggLoop]
    rw [h]
  · intro save n c sv er e rest
    simp only [aggLoop]

/-- Witness for C8: a failing save panics the aggregator on a concrete
message. -/
theorem persistence_error_vs_item_error_w :
    demoBadSave "a" [] = Except.error "io" ∧
    aggLoop demoBadSave 1 0 [] []
      [SystemMessage.processingResult (Except.ok ("a", []))] =
      AggOut.panicked "Failed to save labels" :=
  ⟨rfl, persistence_error_vs_item_error.1 demoBadSave 1 0 [] [] "a" [] [] "io" rfl⟩

/-- C9: whenever `ObjectDetectionTask::process` (i.e. `detect_objects`)
returns `Ok`, the returned label list is empty — the extraction logic is an
unimplemented `TODO`, so the annotation vector is still `Vec::new()` — and
consequently the persisted label file has no lines. -/
theorem detect_objects_yields_no_labels {Img : Type}
    (cvPipeline : Img → Except PErr Unit) (input : Img) (ls : List Lbl)
    (h : process cvPipeline input = Except.ok ls) :
    ls = [] ∧ labelLines ls = [] := by
  cases hc : cvPipeline input with
  | ok u =>
    simp [process, detect_objects, hc] at h
    subst h
    exact ⟨rfl, rfl⟩
  | error e =>
    simp [process, detect_objects, hc] at h

/-- Witness for C9: a successful pipeline invocation on a concrete input. -/
theorem detect_objects_yields_no_labels_w :
    process (fun _ : Unit => Except.ok ()) () = Except.ok ([] : List Lbl) ∧
    (([] : List Lbl) = [] ∧ labelLines [] = []) :=
  ⟨rfl, detect_objects_yields_no_labels (fun _ : Unit => Except.ok ()) () [] rfl⟩

/-- C10: `save_labels` hits the `unwrap` panic exactly on paths without a file
stem — e.g. the empty path and `".."` — and succeeds in deriving the file
name on every path whose stem exists (on unicode strings `to_str` cannot
fail, so the second `unwrap` never panics in the model). -/
theorem save_labels_panic_domain :
    save_labels "" [] = none ∧ save_labels ".." [] = none ∧
    (∀ (P : String) (L : List Lbl) (stem : String), fileStem P = some stem →
      (save_labels P L).isSome) := by
  refine ⟨by decide, by decide, ?_⟩
  intro P L stem h
  simp [save_labels, h]

/-- Witness for C10: a path with a stem on which `save_labels` succeeds. -/
theorem save_labels_panic_domain_w :
    fileStem "shot_001.png" = some "shot_001" ∧
    (save_labels "shot_001.png" ([] : List Lbl)).isSome :=
  ⟨by decide, save_labels_panic_domain.2.2 "shot_001.png" [] "shot_001" (by decide)⟩

/-- C3: with sufficient fuel (which the bound `paths.len - index < fuel`
supplies), the worker loop sends exactly one message per remaining item —
the tagged task result when loading succeeds, the failure Outcome when
loading fails — followed by exactly one `Completed`; the loop ends only at
`None`, and no per-item failure shortens the trace (its length is always
remaining items + 1). -/
theorem worker_loop_behavior {Img : Type} (task : Img → Except PErr (List Lbl))
    (load : String → Except PErr Img) (s : ImageSource) (fuel : ℕ)
    (hfuel : s.paths.length - s.index < fuel) :
    workerLoop task load fuel s =
      (s.paths.drop s.index).map (itemMsg task load) ++ [SystemMessage.completed] ∧
    (∀ (p : String) (img : Img), load p = Except.ok img →
      itemMsg task load p =
        SystemMessage.processingResult ((task img).map (fun ls => (p, ls)))) ∧
    (∀ (p : String) (e : PErr), load p = Except.error e →
      itemMsg task load p = SystemMessage.processingResult (Except.error e)) ∧
    countCompleted ((s.paths.drop s.index).map (itemMsg task load)) = 0 ∧
    (workerLoop task load fuel s).length = (s.paths.drop s.index).length + 1 := by
  refine ⟨workerLoop_eq task load fuel s hfuel, ?_, ?_,
    countCompleted_map_itemMsg task load _, ?_⟩
  · intro p img hl
    simp only [itemMsg]
    rw [hl]
  · intro p e hl
    simp only [itemMsg]
    rw [hl]
  · rw [workerLoop_eq task load fuel s hfuel]
    simp

/-- Witness for C3: a one-item source with fuel 2. -/
theorem worker_loop_behavior_w :
    (["a"] : List String).length - 0 < 2 ∧
    (workerLoop demoTask demoLoad 2 ⟨["a"], 0⟩ =
      ((["a"] : List String).drop 0).map (itemMsg demoTask demoLoad) ++
        [SystemMessage.completed] ∧
    (∀ (p : String) (img : Unit), demoLoad p = Except.ok img →
      itemMsg demoTask demoLoad p =
        SystemMessage.processingResult ((demoTask img).map (fun ls => (p, ls)))) ∧
    (∀ (p : String) (e : PErr), demoLoad p = Except.error e →
      itemMsg demoTask demoLoad p = SystemMessage.processingResult (Except.error e)) ∧
    countCompleted (((["a"] : List String).drop 0).map (itemMsg demoTask demoLoad)) = 0 ∧
    (workerLoop demoTask demoLoad 2 ⟨["a"], 0⟩).length =
      ((["a"] : List String).drop 0).length + 1) :=
  ⟨by decide, worker_loop_behavior demoTask demoLoad ⟨["a"], 0⟩ 2 (by decide)⟩

/-- C5: the lines `save_labels` writes to the output file are exactly one
formatted line per label, so the line count equals the label count; a line is
the class id and the four scalars rendered fixed-point with six decimals, and
the record `(0, 0.5, 0.5, 0.2, 0.3)` renders as
`0 0.500000 0.500000 0.200000 0.300000` — both for the exact rationals and
for the dyadic rationals that are the actual `f32` values of 0.2 and 0.3. -/
theorem save_labels_line_format (P stem : String) (L : List Lbl) (ops : List FsOp)
    (hstem : fileStem P = some stem) (hops : save_labels P L = some ops) :
    ops.filterMap (lineOf ("./output/labels/" ++ stem ++ ".txt")) = L.map formatLine ∧
    (ops.filterMap (lineOf ("./output/labels/" ++ stem ++ ".txt"))).length = L.length ∧
    formatLine (0, mkRat 1 2, mkRat 1 2, mkRat 1 5, mkRat 3 10) =
      "0 0.500000 0.500000 0.200000 0.300000" ∧
    formatLine (0, mkRat 1 2, mkRat 1 2, mkRat 13421773 67108864,
      mkRat 10066330 33554432) = "0 0.500000 0.500000 0.200000 0.300000" := by
  have hops' : ops = FsOp.createDirAll "./output/labels" ::
      FsOp.createFile ("./output/labels/" ++ stem ++ ".txt") ::
      L.map (fun l => FsOp.writeLine ("./output/labels/" ++ stem ++ ".txt")
        (formatLine l)) := by
    simp only [save_labels, hstem] at hops
    exact (Option.some.inj hops).symm
  subst hops'
  have hlines : (FsOp.createDirAll "./output/labels" ::
      FsOp.createFile ("./output/labels/" ++ stem ++ ".txt") ::
      L.map (fun l => FsOp.writeLine ("./output/labels/" ++ stem ++ ".txt")
        (formatLine l))).filterMap
        (lineOf ("./output/labels/" ++ stem ++ ".txt")) = L.map formatLine := by
    simp only [List.filterMap_cons]
    rw [show lineOf ("./output/labels/" ++ stem ++ ".txt")
      (FsOp.createDirAll "./output/labels") = none from rfl]
    rw [show lineOf ("./output/labels/" ++ stem ++ ".txt")
      (FsOp.createFile ("./output/labels/" ++ stem ++ ".txt")) = none from rfl]
    exact filterMap_lineOf_writeLines _ L
  refine ⟨hlines, ?_, by decide, by decide⟩
  rw [hlines, List.length_map]

/-- Witness for C5: a one-label save on a concrete path. -/
theorem save_labels_line_format_w :
    fileStem "shot_001.png" = some "shot_001" ∧
    save_labels "shot_001.png" [(0, mkRat 1 2, mkRat 1 2, mkRat 1 5, mkRat 3 10)] =
      some [FsOp.createDirAll "./output/labels",
        FsOp.createFile "./output/labels/shot_001.txt",
        FsOp.writeLine "./output/labels/shot_001.txt"
          "0 0.500000 0.500000 0.200000 0.300000"] ∧
    ([FsOp.createDirAll "./output/labels",
      FsOp.createFile "./output/labels/shot_001.txt",
      FsOp.writeLine "./output/labels/shot_001.txt"
        "0 0.500000 0.500000 0.200000 0.300000"].filterMap
        (lineOf "./output/labels/shot_001.txt") =
      [(0, mkRat 1 2, mkRat 1 2, mkRat 1 5, mkRat 3 10)].map formatLine ∧
    ([FsOp.createDirAll "./output/labels",
      FsOp.createFile "./output/labels/shot_001.txt",
      FsOp.writeLine "./output/labels/shot_001.txt"
        "0 0.500000 0.500000 0.200000 0.300000"].filterMap
        (lineOf "./output/labels/shot_001.txt")).length =
      [(0, mkRat 1 2, mkRat 1 2, mkRat 1 5, mkRat 3 10)].length ∧
    formatLine (0, mkRat 1 2, mkRat 1 2, mkRat 1 5, mkRat 3 10) =
      "0 0.500000 0.500000 0.200000 0.300000" ∧
    formatLine (0, mkRat 1 2, mkRat 1 2, mkRat 13421773 67108864,
      mkRat 10066330 33554432) = "0 0.500000 0.500000 0.200000 0.300000") :=
  ⟨by decide, by decide,
    save_labels_line_format "shot_001.png" "shot_001"
      [(0, mkRat 1 2, mkRat 1 2, mkRat 1 5, mkRat 3 10)]
      [FsOp.createDirAll "./output/labels",
        FsOp.createFile "./output/labels/shot_001.txt",
        FsOp.writeLine "./output/labels/shot_001.txt"
          "0 0.500000 0.500000 0.200000 0.300000"]
      (by decide) (by decide)⟩

/-- C1: every worker trace carries exactly one `Completed`, as its final
message; and on any interleaving the aggregator run returns normally with the
consumed prefix ending exactly at the `n`-th completion signal (the prefix
before it holds `n - 1` signals, everything after it is left unconsumed),
regardless of how many failure Outcomes precede it. -/
theorem aggregator_stops_at_nth_completion {Img : Type}
    (task : Img → Except PErr (List Lbl)) (load : String → Except PErr Img)
    (save : String → List Lbl → Except String Unit) (n : ℕ)
    (traces : List (List SystemMessage)) (m : List SystemMessage)
    (hn : 1 ≤ n) (hlen : traces.length = n)
    (hw : ∀ t ∈ traces, ∃ s : ImageSource, t = workerTrace task load s)
    (hm : Interleaving traces m)
    (hsave : ∀ (p : String) (ls : List Lbl), save p ls = Except.ok ()) :
    (∀ t ∈ traces, countCompleted t = 1 ∧
      ∃ body, t = body ++ [SystemMessage.completed] ∧ countCompleted body = 0) ∧
    ∃ sv er pre rest, m = pre ++ SystemMessage.completed :: rest ∧
      countCompleted pre = n - 1 ∧
      aggLoop save n 0 [] [] m = AggOut.done sv er rest := by
  have htr : ∀ t ∈ traces, countCompleted t = 1 ∧
      ∃ body, t = body ++ [SystemMessage.completed] ∧ countCompleted body = 0 := by
    intro t ht
    obtain ⟨s, rfl⟩ := hw t ht
    exact ⟨countCompleted_workerTrace task load s,
      (s.paths.drop s.index).map (itemMsg task load), workerTrace_eq task load s,
      countCompleted_map_itemMsg task load _⟩
  have hcount : countCompleted m = n := by
    rw [countCompleted, interleaving_countP isCompleted traces m hm]
    have hone : ∀ x ∈ traces.map (List.countP isCompleted), x = 1 := by
      intro x hx
      obtain ⟨t, ht, rfl⟩ := List.mem_map.mp hx
      exact (htr t ht).1
    rw [show traces.map (List.countP isCompleted) = List.replicate n 1 from
      List.eq_replicate_iff.mpr ⟨by simp [hlen], hone⟩]
    simp
  obtain ⟨sv, er, pre, rest, h1, h2, h3⟩ :=
    aggLoop_done save hsave m n 0 [] [] (by omega) (by omega)
  exact ⟨htr, sv, er, pre, rest, h1, by omega, h3⟩

/-- Witness for C1: one worker over an empty source, so the channel carries a
single completion signal. -/
theorem aggregator_stops_at_nth_completion_w :
    (∀ t ∈ [workerTrace demoTask demoLoad ⟨[], 0⟩], countCompleted t = 1 ∧
      ∃ body, t = body ++ [SystemMessage.completed] ∧ countCompleted body = 0) ∧
    ∃ sv er pre rest,
      [SystemMessage.completed] = pre ++ SystemMessage.completed :: rest ∧
      countCompleted pre = 1 - 1 ∧
      aggLoop demoSave 1 0 [] [] [SystemMessage.completed] = AggOut.done sv er rest :=
  aggregator_stops_at_nth_completion demoTask demoLoad demoSave 1
    [workerTrace demoTask demoLoad ⟨[], 0⟩] [SystemMessage.completed]
    (by decide) rfl
    (fun t ht => ⟨⟨[], 0⟩, by simpa using ht⟩)
    ⟨[], Merge.left Merge.nil, rfl⟩
    (fun p ls => rfl)

/-- C7: with an empty source every worker's trace is the single `Completed`
message, so any channel interleaving carries no Outcome at all, and the
aggregator returns with nothing persisted and nothing reported. -/
theorem empty_source_run {Img : Type} (task : Img → Except PErr (List Lbl))
    (load : String → Except PErr Img) (save : String → List Lbl → Except String Unit)
    (n : ℕ) (m : List SystemMessage) (hn : 1 ≤ n)
    (hm : Interleaving (spawnTraces task load ⟨[], 0⟩ n) m) :
    workerTrace task load ⟨[], 0⟩ = [SystemMessage.completed] ∧
    outcomeCount m = 0 ∧
    aggLoop save n 0 [] [] m = AggOut.done [] [] [] := by
  have htrace : workerTrace task load ⟨[], 0⟩ = [SystemMessage.completed] := by
    rw [workerTrace_eq]
    rfl
  have hm' : Interleaving (List.replicate n [SystemMessage.completed]) m := by
    have : spawnTraces task load ⟨[], 0⟩ n =
        List.replicate n [SystemMessage.completed] := by
      rw [spawnTraces, htrace]
    rwa [this] at hm
  have hrep := interleaving_replicate_completed n m hm'
  refine ⟨htrace, ?_, ?_⟩
  · rw [hrep, outcomeCount, List.countP_eq_zero]
    intro a ha
    rw [List.eq_of_mem_replicate ha]
    simp [isOutcome]
  · rw [hrep]
    exact aggLoop_replicate_completed save n n 0 (by omega) (by omega)

/-- Witness for C7: one worker, empty source, the singleton interleaving. -/
theorem empty_source_run_w :
    workerTrace demoTask demoLoad ⟨[], 0⟩ = [SystemMessage.completed] ∧
    outcomeCount [SystemMessage.completed] = 0 ∧
    aggLoop demoSave 1 0 [] [] [SystemMessage.completed] = AggOut.done [] [] [] :=
  empty_source_run demoTask demoLoad demoSave 1 [SystemMessage.completed]
    (by decide) ⟨[], Merge.left Merge.nil, rfl⟩
